import Mathlib

/-!
Verification development for the `irp` infrared library: a shallow embedding of
the crate's data model (`Message`, `Pronto`, `Irp`, `Expression`, `Vartable`,
`InfraredData` from `irp/src/lib.rs`) together with the lircd-conf IRP string
builder (`src/lircd_conf/irp.rs`), and executable models of the encoder and of
the NFA decoder.  The encoder, decoder, expression evaluator and parsers are not
part of the sources at hand (only their data model and doc-tests are), so those
operations are modelled from the specification; each such definition says so in
its doc comment.  Rust `f64` values are modelled as exact rational numbers
(numerator/denominator pairs): every concrete value exercised here (`564`,
`889`, `38.4`, ...) is handled exactly by both representations.
-/

set_option maxRecDepth 40000

/-- Exact-rational model of a Rust `f64` value (numerator over positive
denominator).  The IRP general-spec unit and the duration constants of the
expression tree are `f64` in the source; all values arising in this development
are decimal literals which both representations handle exactly. -/
structure F64 where
  num : Int
  den : Int
deriving DecidableEq, Repr

/-- Floor of `n / d` clamped below by `0` — the saturating behaviour of a Rust
float-to-`u32` cast for the negative range. -/
def ratFloorNat (n d : Int) : Nat := (Int.fdiv n d).toNat

/-- An encoded raw infrared message (struct `Message` in `irp/src/lib.rs`).
`carrier = none` means unknown, `some 0` means unmodulated; `duty_cycle` is a
percentage; `raw` alternates flash/gap durations in microseconds (`Vec<u32>` in
the source, hence every entry is below `2^32`). -/
structure Message where
  carrier : Option Int
  duty_cycle : Option Nat
  raw : List Nat
deriving DecidableEq, Repr

/-- A parsed or generated pronto hex code (enum `Pronto` in `irp/src/lib.rs`):
only the two long learned forms exist. -/
inductive Pronto where
  | LearnedUnmodulated (frequency : F64) (intro : List F64) (repeat' : List F64)
  | LearnedModulated (frequency : F64) (intro : List F64) (repeat' : List F64)
deriving DecidableEq, Repr

/-- Input data to the decoder (enum `InfraredData` in `irp/src/lib.rs`);
durations are 32-bit unsigned microsecond counts. -/
inductive InfraredData where
  | Flash (d : Fin 4294967296)
  | Gap (d : Fin 4294967296)
  | Reset
deriving DecidableEq, Repr

/-- Durations of the IRP language (enum `Unit` in `irp/src/lib.rs`; primed here
because `Unit` is taken in Lean). -/
inductive Unit' where
  | Units
  | Microseconds
  | Milliseconds
  | Pulses
deriving DecidableEq, Repr

/-- Repeat markers of an IRP stream (enum `RepeatMarker` in `irp/src/lib.rs`):
`*`, `+`, `n`, `n+` and nothing else. -/
inductive RepeatMarker where
  | Any
  | OneOrMore
  | Count (n : Int)
  | CountOrMore (n : Int)
deriving DecidableEq, Repr

mutual

/-- The IRP expression tree (enum `Expression` in `irp/src/lib.rs`).  `f64`
payloads are modelled as exact rationals (`F64`), `Rc` sharing as plain
subterms. -/
inductive Expression where
  | FlashConstant (v : F64) (u : Unit')
  | GapConstant (v : F64) (u : Unit')
  | ExtentConstant (v : F64) (u : Unit')
  | FlashIdentifier (name : String) (u : Unit')
  | GapIdentifier (name : String) (u : Unit')
  | ExtentIdentifier (name : String) (u : Unit')
  | Assignment (name : String) (e : Expression)
  | Number (n : Int)
  | Identifier (name : String)
  | BitField (value : Expression) (reverse : Bool) (length : Expression)
      (skip : Option Expression)
  | InfiniteBitField (value : Expression) (skip : Expression)
  | Complement (e : Expression)
  | Not (e : Expression)
  | Negative (e : Expression)
  | BitCount (e : Expression)
  | Power (l r : Expression)
  | Multiply (l r : Expression)
  | Divide (l r : Expression)
  | Modulo (l r : Expression)
  | Add (l r : Expression)
  | Subtract (l r : Expression)
  | ShiftLeft (l r : Expression)
  | ShiftRight (l r : Expression)
  | LessEqual (l r : Expression)
  | Less (l r : Expression)
  | More (l r : Expression)
  | MoreEqual (l r : Expression)
  | Equal (l r : Expression)
  | NotEqual (l r : Expression)
  | BitwiseAnd (l r : Expression)
  | BitwiseOr (l r : Expression)
  | BitwiseXor (l r : Expression)
  | Or (l r : Expression)
  | And (l r : Expression)
  | Ternary (c t e : Expression)
  | List (xs : List Expression)
  | Stream (s : IrStream)
  | Variation (alts : List (List Expression))
  | BitReverse (e : Expression) (count : Int) (skip : Int)
  | Log2 (e : Expression)

/-- An IRP stream (struct `IrStream` in `irp/src/lib.rs`): ordered
sub-expressions, a bit-spec (empty list = absent), and an optional repeat
marker.  The source field `repeat` is a Lean keyword, hence `repeat'`. -/
inductive IrStream where
  | mk (bit_spec : List Expression) (stream : List Expression)
      (repeat' : Option RepeatMarker)

end

/-- The alternatives of a stream's bit-spec. -/
def IrStream.bit_spec : IrStream → List Expression
  | .mk b _ _ => b

/-- The ordered items of a stream. -/
def IrStream.stream : IrStream → List Expression
  | .mk _ s _ => s

/-- The optional repeat marker of a stream. -/
def IrStream.repeat' : IrStream → Option RepeatMarker
  | .mk _ _ r => r

/-- Modelled from the spec: the parser accepts a bit-spec of one to four
alternatives (data-model section, "optional bit-spec (1-4 alternatives)"), so
any `IrStream` it produces satisfies this bound; the `IrStream` type itself
(missing `parser.rs`) does not restrict the length. -/
def IrStream.parsedWF (s : IrStream) : Prop := s.bit_spec.length ≤ 4

instance (s : IrStream) : Decidable s.parsedWF := by
  unfold IrStream.parsedWF; infer_instance

/-- One parameter of an IRP parameter spec (struct `ParameterSpec` in
`irp/src/lib.rs`). -/
structure ParameterSpec where
  name : String
  memory : Bool
  min : Expression
  max : Expression
  default : Option Expression

/-- The general spec of an IRP (struct `GeneralSpec` in `irp/src/lib.rs`);
`unit` is `f64` in the source, modelled exactly. -/
structure GeneralSpec where
  duty_cycle : Option Nat
  carrier : Option Int
  lsb : Bool
  unit : F64

/-- A parsed IRP notation (struct `Irp` in `irp/src/lib.rs`). -/
structure Irp where
  general_spec : GeneralSpec
  stream : Expression
  definitions : List Expression
  parameters : List ParameterSpec

/-- The variable table (struct `Vartable` in `irp/src/lib.rs`): name to
(64-bit signed value, bit width, optional lazy expression). -/
structure Vartable where
  vars : List (String × (Int × Nat × Option Expression))

/-- `Vartable::new`. -/
def Vartable.new : Vartable := ⟨[]⟩

/-- `Vartable::set`: bind a concrete value with its bit width (later bindings
shadow earlier ones). -/
def Vartable.set (t : Vartable) (name : String) (v : Int) (w : Nat) : Vartable :=
  ⟨(name, (v, w, none)) :: t.vars⟩

/-- `Vartable::set_lazy` (spec 4.C): bind a lazily evaluated expression. -/
def Vartable.set_lazy (t : Vartable) (name : String) (e : Expression) : Vartable :=
  ⟨(name, (0, 64, some e)) :: t.vars⟩

/-- Modelled from the spec: the decoder's duration-matching rule (4.G).  An
observed duration matches an expected one when their distance is at most
`max(absolute tolerance, relative tolerance percent of the expected value)`. -/
def toleranceMatch (absTol relTol obs expected : Nat) : Bool :=
  (if obs ≥ expected then obs - expected else expected - obs)
    ≤ max absTol (relTol * expected / 100)

/-- The RC5 time base: 889 microseconds per half-bit (general spec of the RC5
IRP used by the `NFA::decoder` doc-test). -/
def rc5Unit : Nat := 889

/-- Modelled from the spec: classify an observed duration as one or two RC5
half-bit units.  The NFA compiled from the RC5 IRP expects, after merging of
adjacent equal-polarity emissions, only durations of one unit (889) or two
units (1778); matching uses the tolerance rule of 4.G. -/
def rc5Classify (absTol relTol d : Nat) : Option Nat :=
  if toleranceMatch absTol relTol d rc5Unit then some 1
  else if toleranceMatch absTol relTol d (2 * rc5Unit) then some 2
  else none

/-- Decode the Manchester cell list: each consecutive pair of half-bit slots is
`gap,flash` for bit 1 (bit-spec alternative `-1,1`) or `flash,gap` for bit 0
(alternative `1,-1`); `true` in the input list is a flash slot. -/
def rc5Cells : List Bool → Option (List Bool)
  | [] => some []
  | false :: true :: rest => (rc5Cells rest).map (true :: ·)
  | true :: false :: rest => (rc5Cells rest).map (false :: ·)
  | _ => none

/-- Most-significant-bit-first accumulation of a bit list. -/
def bitsVal (l : List Bool) : Int :=
  l.foldl (fun a b => 2 * a + (if b then 1 else 0)) 0

/-- Modelled from the spec: acceptance of one RC5 repeat burst.  The slot list
must be the leading flash `1` followed by 13 Manchester cells for
`~F:1:6,T:1,D:5,F:6` (msb order).  The bind for `~F:1:6` is inverted into bit 6
of `F` (inverse-solver, 4.E/4.F), the assignment `T=1-T` of the outer stream
re-binds `T` before `Done` fires (4.D/4.F), and the declared parameter ranges
`[D:0..31,F:0..127,T@:0..1]` are checked on acceptance (4.G step 4). -/
def rc5Finalize (slots : List Bool) : Option (List (String × Int)) :=
  match slots with
  | true :: rest =>
    match rc5Cells rest with
    | some (b1 :: bt :: bits) =>
      if bits.length = 11 then
        let d := bitsVal (bits.take 5)
        let f := (if b1 then 0 else 64) + bitsVal (bits.drop 5)
        let t := 1 - (if bt then (1 : Int) else 0)
        if 0 ≤ d ∧ d ≤ 31 ∧ 0 ≤ f ∧ f ≤ 127 ∧ 0 ≤ t ∧ t ≤ 1 then
          some [("D", d), ("F", f), ("T", t)]
        else none
      else none
    | _ => none
  | _ => none

/-- Modelled from the spec: the live-path state of the RC5 decoder (built by
`nfa.decoder(abs, rel, trailing)`) plus its queue of results (drained by
`get()` in the source). -/
structure Rc5Decoder where
  absTol : Nat
  relTol : Nat
  trailingGap : Nat
  slots : List Bool
  dead : Bool
  results : List (List (String × Int))
deriving DecidableEq, Repr

/-- Modelled from the spec: `Decoder::input` for the RC5 NFA.  Flash and gap
durations are classified within tolerance and extend the live path (a failed
match prunes it, 4.G step 3); a gap longer than the trailing-gap threshold ends
the repeat and fires `Done` (4.G matching); `Reset` drops all live paths and
re-seeds from the start (4.G cancellation). -/
def rc5Step (s : Rc5Decoder) : InfraredData → Rc5Decoder
  | .Reset => ⟨s.absTol, s.relTol, s.trailingGap, [], false, s.results⟩
  | .Flash d =>
    if s.dead then s
    else
      match rc5Classify s.absTol s.relTol d.val with
      | some n =>
        ⟨s.absTol, s.relTol, s.trailingGap, s.slots ++ List.replicate n true,
          false, s.results⟩
      | none => ⟨s.absTol, s.relTol, s.trailingGap, s.slots, true, s.results⟩
  | .Gap d =>
    if d.val > s.trailingGap then
      match (if s.dead then none else rc5Finalize s.slots) with
      | some r => ⟨s.absTol, s.relTol, s.trailingGap, [], false, s.results ++ [r]⟩
      | none => ⟨s.absTol, s.relTol, s.trailingGap, [], false, s.results⟩
    else if s.dead then s
    else
      match rc5Classify s.absTol s.relTol d.val with
      | some n =>
        ⟨s.absTol, s.relTol, s.trailingGap, s.slots ++ List.replicate n false,
          false, s.results⟩
      | none => ⟨s.absTol, s.relTol, s.trailingGap, s.slots, true, s.results⟩

/-- Modelled from the spec: run the RC5 decoder over an input sequence from a
fresh state and report the queued results. -/
def rc5Run (absTol relTol trailingGap : Nat) (input : List InfraredData) :
    Rc5Decoder :=
  input.foldl rc5Step ⟨absTol, relTol, trailingGap, [], false, []⟩

/-- The doc-test input of `NFA::decoder`: `+940 -860 +1790 -1750 +880 -880 +900
-890 +870 -900 +1750 -900 +890 -910 +840 -920 +870 -920 +840 -920 +870 -1810
+840 -125000`. -/
def rc5DoctestInput : List InfraredData :=
  [.Flash 940, .Gap 860, .Flash 1790, .Gap 1750, .Flash 880, .Gap 880,
   .Flash 900, .Gap 890, .Flash 870, .Gap 900, .Flash 1750, .Gap 900,
   .Flash 890, .Gap 910, .Flash 840, .Gap 920, .Flash 870, .Gap 920,
   .Flash 840, .Gap 920, .Flash 870, .Gap 1810, .Flash 840, .Gap 125000]

/-- Wrap an integer into the signed 64-bit range (the evaluator works on `i64`
per spec 4.B). -/
def wrap64 (v : Int) : Int := (v + 2 ^ 63) % 2 ^ 64 - 2 ^ 63

/-- The unsigned 64-bit image of a signed value, for bitwise operations. -/
def toU64 (v : Int) : Nat := (v % 2 ^ 64).toNat

/-- Back from the unsigned image to the signed 64-bit value. -/
def ofU64 (n : Nat) : Int := wrap64 n

/-- All-ones mask of the given bit width. -/
def maskW (w : Nat) : Nat := 2 ^ w - 1

/-- Number of set bits among the low `w` bits of `n` (structural on `w`). -/
def popCountW : Nat → Nat → Nat
  | 0, _ => 0
  | w + 1, n => n % 2 + popCountW w (n / 2)

/-- Reverse the low `w` bits of `n` (structural on `w`). -/
def reverseBitsW : Nat → Nat → Nat
  | 0, _ => 0
  | w + 1, n => n % 2 * 2 ^ w + reverseBitsW w (n / 2)

/-- Floor base-2 logarithm via a fuel argument (structural so that concrete
runs reduce in the kernel). -/
def log2Fuel : Nat → Nat → Nat
  | 0, _ => 0
  | f + 1, n => if n ≥ 2 then log2Fuel f (n / 2) + 1 else 0

/-- Modelled from the spec: the expression kernel (4.B).  Evaluates an
expression against a `Vartable` to a pair (signed 64-bit value, bit width), or
`none` on a domain error (division by zero, shift out of range, log of a
non-positive value) or on an expression with no value (duration atoms, streams,
variations).  Identifier lookups force lazy bindings (4.C).  The first argument
is recursion fuel; the spec's programs are finite so a large fuel is exact. -/
def evalE : Nat → Expression → Vartable → Option (Int × Nat)
  | 0, _, _ => none
  | f + 1, e, t =>
    match e with
    | .Number n => some (n, 64)
    | .Identifier name =>
      match t.vars.find? (fun p => p.1 = name) with
      | none => none
      | some (_, (v, w, none)) => some (v, w)
      | some (_, (_, _, some lazyE)) => evalE f lazyE t
    | .BitField value reverse length skip => do
      let (v, _) ← evalE f value t
      let (l, _) ← evalE f length t
      let s ← match skip with
        | none => some (0 : Int)
        | some sk => (evalE f sk t).map (·.1)
      if 0 ≤ l ∧ l ≤ 64 ∧ 0 ≤ s ∧ s < 64 then
        let field := toU64 v >>> s.toNat &&& maskW l.toNat
        let field := if reverse then reverseBitsW l.toNat field else field
        some (ofU64 field, l.toNat)
      else none
    | .InfiniteBitField value skip => do
      let (v, _) ← evalE f value t
      let (s, _) ← evalE f skip t
      if 0 ≤ s ∧ s < 64 then some (Int.fdiv v (2 ^ s.toNat), 64) else none
    | .Complement sub => do
      let (v, w) ← evalE f sub t
      some (ofU64 ((toU64 v &&& maskW w) ^^^ maskW w), w)
    | .Not sub => do
      let (v, _) ← evalE f sub t
      some (if v = 0 then 1 else 0, 1)
    | .Negative sub => do
      let (v, _) ← evalE f sub t
      some (wrap64 (-v), 64)
    | .BitCount sub => do
      let (v, _) ← evalE f sub t
      some ((popCountW 64 (toU64 v) : Int), 64)
    | .Power l r => do
      let (a, _) ← evalE f l t
      let (b, _) ← evalE f r t
      if 0 ≤ b then some (wrap64 (a ^ b.toNat), 64) else none
    | .Multiply l r => do
      let (a, _) ← evalE f l t
      let (b, _) ← evalE f r t
      some (wrap64 (a * b), 64)
    | .Divide l r => do
      let (a, _) ← evalE f l t
      let (b, _) ← evalE f r t
      if b = 0 then none else some (wrap64 (Int.tdiv a b), 64)
    | .Modulo l r => do
      let (a, _) ← evalE f l t
      let (b, _) ← evalE f r t
      if b = 0 then none else some (wrap64 (Int.tmod a b), 64)
    | .Add l r => do
      let (a, _) ← evalE f l t
      let (b, _) ← evalE f r t
      some (wrap64 (a + b), 64)
    | .Subtract l r => do
      let (a, _) ← evalE f l t
      let (b, _) ← evalE f r t
      some (wrap64 (a - b), 64)
    | .ShiftLeft l r => do
      let (a, _) ← evalE f l t
      let (b, _) ← evalE f r t
      if 0 ≤ b ∧ b < 64 then some (wrap64 (a * 2 ^ b.toNat), 64) else none
    | .ShiftRight l r => do
      let (a, _) ← evalE f l t
      let (b, _) ← evalE f r t
      if 0 ≤ b ∧ b < 64 then some (Int.fdiv a (2 ^ b.toNat), 64) else none
    | .LessEqual l r => do
      let (a, _) ← evalE f l t
      let (b, _) ← evalE f r t
      some (if a ≤ b then 1 else 0, 1)
    | .Less l r => do
      let (a, _) ← evalE f l t
      let (b, _) ← evalE f r t
      some (if a < b then 1 else 0, 1)
    | .More l r => do
      let (a, _) ← evalE f l t
      let (b, _) ← evalE f r t
      some (if b < a then 1 else 0, 1)
    | .MoreEqual l r => do
      let (a, _) ← evalE f l t
      let (b, _) ← evalE f r t
      some (if b ≤ a then 1 else 0, 1)
    | .Equal l r => do
      let (a, _) ← evalE f l t
      let (b, _) ← evalE f r t
      some (if a = b then 1 else 0, 1)
    | .NotEqual l r => do
      let (a, _) ← evalE f l t
      let (b, _) ← evalE f r t
      some (if a = b then 0 else 1, 1)
    | .BitwiseAnd l r => do
      let (a, _) ← evalE f l t
      let (b, _) ← evalE f r t
      some (ofU64 (toU64 a &&& toU64 b), 64)
    | .BitwiseOr l r => do
      let (a, _) ← evalE f l t
      let (b, _) ← evalE f r t
      some (ofU64 (toU64 a ||| toU64 b), 64)
    | .BitwiseXor l r => do
      let (a, _) ← evalE f l t
      let (b, _) ← evalE f r t
      some (ofU64 (toU64 a ^^^ toU64 b), 64)
    | .Or l r => do
      let (a, _) ← evalE f l t
      let (b, _) ← evalE f r t
      some (if a ≠ 0 ∨ b ≠ 0 then 1 else 0, 1)
    | .And l r => do
      let (a, _) ← evalE f l t
      let (b, _) ← evalE f r t
      some (if a ≠ 0 ∧ b ≠ 0 then 1 else 0, 1)
    | .Ternary c th el => do
      let (v, _) ← evalE f c t
      if v ≠ 0 then evalE f th t else evalE f el t
    | .Log2 sub => do
      let (v, _) ← evalE f sub t
      if 0 < v then some ((log2Fuel 64 v.toNat : Int), 64) else none
    | .BitReverse sub count skip => do
      let (v, _) ← evalE f sub t
      if 0 ≤ count ∧ count ≤ 64 ∧ 0 ≤ skip ∧ skip < 64 then
        some (ofU64 (reverseBitsW count.toNat (toU64 v >>> skip.toNat)), 64)
      else none
    | _ => none

/-- `Vartable::get` (spec 4.C): look a name up, forcing a lazy binding. -/
def Vartable.get (fuel : Nat) (t : Vartable) (name : String) : Option (Int × Nat) :=
  evalE fuel (.Identifier name) t

/-- One emission of the stream walker: a polarity (`true` = flash) and a
duration in microseconds. -/
structure Event where
  pol : Bool
  dur : Nat
deriving DecidableEq, Repr

/-- Modelled from the spec: convert a duration constant to microseconds
(4.D step 5).  `Units` multiplies by the general-spec unit, `Milliseconds` by
1000, `Microseconds` passes through, `Pulses` uses periods of the carrier. -/
def durConst (gs : GeneralSpec) (c : F64) (u : Unit') : Option Nat :=
  match u with
  | .Units => some (ratFloorNat (c.num * gs.unit.num) (c.den * gs.unit.den))
  | .Microseconds => some (ratFloorNat c.num c.den)
  | .Milliseconds => some (ratFloorNat (c.num * 1000) c.den)
  | .Pulses =>
    match gs.carrier with
    | some cr =>
      if 0 < cr then some (ratFloorNat (c.num * 1000000) (c.den * cr)) else none
    | none => none

/-- Bits consumed per bit-spec alternative: a bit-spec of 2/4/8/16 alternatives
encodes 1/2/3/4 bits per emitted body (4.D step 4 and design note on bit-spec
dispatch); other arities cannot encode bits. -/
def chunkBitsOf (arity : Nat) : Option Nat :=
  if arity = 2 then some 1
  else if arity = 4 then some 2
  else if arity = 8 then some 3
  else if arity = 16 then some 4
  else none

/-- The chunk values of a field, least-significant-first under `lsb` and
most-significant-first under `msb` (4.D step 4). -/
def chunksOf (lsb : Bool) (field L cb : Nat) : List Nat :=
  let idx := List.range (L / cb)
  (if lsb then idx else idx.reverse).map (fun i => field >>> (i * cb) &&& maskW cb)

/-- Total duration of an event list, used for extents. -/
def sumDur (l : List Event) : Nat := l.foldl (fun a e => a + e.dur) 0

/-- Modelled from the spec: the stream walker of the encoder (4.D).  Arguments:
fuel, general spec, the repeat count passed to `encode`, the bit-spec in scope,
the variable table, the events emitted so far by the enclosing stream (extents
measure against their total, 4.D step 6), and the expression to walk.  Returns
the updated table and the extended event list.  Assignments update the table
immediately; bit-valued items dispatch each chunk of bits through the bit-spec;
a nested stream runs `repeats` times for `*`, `1 + repeats` for `+`, `k` for a
count `k`, `k + repeats` for `k+`, once without a marker, each run starting a
fresh extent scope; variations and bit-valued uses of other operators are out
of this model's scope and fail. -/
def encItem : Nat → GeneralSpec → Nat → List Expression → Vartable →
    List Event → Expression → Option (Vartable × List Event)
  | 0, _, _, _, _, _, _ => none
  | f + 1, gs, n, bs, vars, acc, e =>
    let encL : List Expression → List Expression → Vartable → List Event →
        Option (Vartable × List Event) :=
      fun bs' items v a =>
        items.foldlM (fun st it => encItem f gs n bs' st.1 st.2 it) (v, a)
    let encBits : Nat → Nat → Vartable → List Event →
        Option (Vartable × List Event) :=
      fun field L v a => do
        let cb ← chunkBitsOf bs.length
        if cb * (L / cb) = L then
          (chunksOf gs.lsb field L cb).foldlM
            (fun st c => do
              let alt ← bs.get? c
              encItem f gs n bs st.1 st.2 alt) (v, a)
        else none
    match e with
    | .FlashConstant c u => do
      let d ← durConst gs c u
      some (vars, acc ++ [⟨true, d⟩])
    | .GapConstant c u => do
      let d ← durConst gs c u
      some (vars, acc ++ [⟨false, d⟩])
    | .ExtentConstant c u => do
      let target ← durConst gs c u
      if sumDur acc < target then
        some (vars, acc ++ [⟨false, target - sumDur acc⟩])
      else none
    | .FlashIdentifier name u => do
      let (v, _) ← vars.get f name
      let d ← durConst gs ⟨v, 1⟩ u
      some (vars, acc ++ [⟨true, d⟩])
    | .GapIdentifier name u => do
      let (v, _) ← vars.get f name
      let d ← durConst gs ⟨v, 1⟩ u
      some (vars, acc ++ [⟨false, d⟩])
    | .ExtentIdentifier name u => do
      let (v, _) ← vars.get f name
      let target ← durConst gs ⟨v, 1⟩ u
      if sumDur acc < target then
        some (vars, acc ++ [⟨false, target - sumDur acc⟩])
      else none
    | .Assignment name sub => do
      let (v, w) ← evalE f sub vars
      some (vars.set name v w, acc)
    | .BitField value rev len skip => do
      let (v, w) ← evalE f (.BitField value rev len skip) vars
      encBits (toU64 v &&& maskW w) w vars acc
    | .Identifier name => do
      let (v, w) ← vars.get f name
      encBits (toU64 v &&& maskW w) w vars acc
    | .Stream s => do
      let bs' := if s.bit_spec.isEmpty then bs else s.bit_spec
      let times :=
        match s.repeat' with
        | none => 1
        | some .Any => n
        | some .OneOrMore => n + 1
        | some (.Count k) => k.toNat
        | some (.CountOrMore k) => k.toNat + n
      let (v', evs) ← (List.replicate times ()).foldlM
        (fun (st : Vartable × List Event) _ => do
          let (v2, evs2) ← encL bs' s.stream st.1 []
          pure (v2, st.2 ++ evs2))
        (vars, ([] : List Event))
      some (v', acc ++ evs)
    | .List xs => encL bs xs vars acc
    | _ => none

/-- Merge run: `cur` is the pending emission, equal-polarity neighbours are
summed (4.D step 7). -/
def mergeAdjAux (cur : Event) : List Event → List Event
  | [] => [cur]
  | b :: rest =>
    if cur.pol = b.pol then mergeAdjAux ⟨cur.pol, cur.dur + b.dur⟩ rest
    else cur :: mergeAdjAux b rest

/-- Merge adjacent same-polarity emissions (4.D step 7). -/
def mergeAdj : List Event → List Event
  | [] => []
  | e :: rest => mergeAdjAux e rest

/-- Modelled from the spec: a message starts on a flash (`Message` invariant,
data-model section), so leading gap emissions are discarded. -/
def dropLeadingGaps (l : List Event) : List Event :=
  l.dropWhile (fun e => !e.pol)

/-- Modelled from the spec: the gap appended when a stream ends on a flash
(4.D step 7).  The spec does not fix its length; this model uses the decoder's
default trailing-gap threshold. -/
def trailingGapDur : Nat := 20000

/-- Append the trailing gap when the last emission is a flash (4.D step 7). -/
def addTrailingGap (l : List Event) : List Event :=
  match l.getLast? with
  | none => []
  | some e => if e.pol then l ++ [⟨false, trailingGapDur⟩] else l

/-- Clamp a duration into `u32` (the `raw` vector holds `u32` values). -/
def capDur (d : Nat) : Nat := min d (2 ^ 32 - 1)

/-- Clamp an event's duration into `u32`. -/
def capEvent (e : Event) : Event := ⟨e.pol, capDur e.dur⟩

/-- Modelled from the spec: post-processing of the emitted events into the raw
sequence — merge, drop leading gaps, enforce the trailing gap, clamp to 32
bits. -/
def normalizeEvents (l : List Event) : List Event :=
  (addTrailingGap (dropLeadingGaps (mergeAdj l))).map capEvent

/-- Modelled from the spec: parameter validation (4.D step 1).  Present
parameters must lie in their inclusive range; absent ones fall back to their
default as a lazy binding, and encoding fails when there is none. -/
def checkParams (f : Nat) (params : List ParameterSpec) (vars : Vartable) :
    Option Vartable :=
  params.foldlM
    (fun v p =>
      match v.vars.find? (fun q => q.1 == p.name) with
      | some _ => do
        let (x, _) ← v.get f p.name
        let (lo, _) ← evalE f p.min v
        let (hi, _) ← evalE f p.max v
        if lo ≤ x ∧ x ≤ hi then some v else none
      | none =>
        match p.default with
        | some d => some (v.set_lazy p.name d)
        | none => none)
    vars

/-- Modelled from the spec: definitions become lazy bindings (4.D step 2). -/
def applyDefinitions (defs : List Expression) (vars : Vartable) :
    Option Vartable :=
  defs.foldlM
    (fun v d =>
      match d with
      | .Assignment name e => some (v.set_lazy name e)
      | _ => none)
    vars

/-- Recursion fuel for encoding; the walker's recursion depth is bounded by the
nesting of the IRP, so any fuel beyond it is exact. -/
def encodeFuel : Nat := 1000000

/-- Modelled from the spec: the event sequence produced by `Irp::encode`
(4.D) before it is packed into a `Message`. -/
def Irp.encodeEvents (irp : Irp) (vars : Vartable) (repeats : Nat) :
    Option (List Event) := do
  let vars ← checkParams encodeFuel irp.parameters vars
  let vars ← applyDefinitions irp.definitions vars
  let (_, evs) ← encItem encodeFuel irp.general_spec repeats [] vars [] irp.stream
  pure (normalizeEvents evs)

/-- Modelled from the spec: `Irp::encode` — walk the stream and pack carrier,
duty cycle and the flash/gap durations into a `Message` (4.D contract). -/
def Irp.encode (irp : Irp) (vars : Vartable) (repeats : Nat) : Option Message :=
  (irp.encodeEvents vars repeats).map
    (fun evs =>
      ⟨irp.general_spec.carrier, irp.general_spec.duty_cycle, evs.map Event.dur⟩)

/-- The parsed form of the NEC1 IRP
`(38.4k,564)<1,-1|1,-3>(16,-8,D:8,S:8,F:8,~F:8,1,^108m,(16,-4,1,^108m)*)
[D:0..255,S:0..255=255-D,F:0..255]` of the `Irp::encode` doc-test (general spec
braces written as parentheses here); frequency `38.4k` becomes carrier
38400 Hz, default `lsb` ordering, unit 564 microseconds. -/
def nec1Irp : Irp :=
  { general_spec := ⟨none, some 38400, true, ⟨564, 1⟩⟩
    stream := .Stream (.mk
      [ .List [.FlashConstant ⟨1, 1⟩ .Units, .GapConstant ⟨1, 1⟩ .Units],
        .List [.FlashConstant ⟨1, 1⟩ .Units, .GapConstant ⟨3, 1⟩ .Units] ]
      [ .FlashConstant ⟨16, 1⟩ .Units,
        .GapConstant ⟨8, 1⟩ .Units,
        .BitField (.Identifier "D") false (.Number 8) none,
        .BitField (.Identifier "S") false (.Number 8) none,
        .BitField (.Identifier "F") false (.Number 8) none,
        .BitField (.Complement (.Identifier "F")) false (.Number 8) none,
        .FlashConstant ⟨1, 1⟩ .Units,
        .ExtentConstant ⟨108, 1⟩ .Milliseconds,
        .Stream (.mk []
          [ .FlashConstant ⟨16, 1⟩ .Units,
            .GapConstant ⟨4, 1⟩ .Units,
            .FlashConstant ⟨1, 1⟩ .Units,
            .ExtentConstant ⟨108, 1⟩ .Milliseconds ]
          (some .Any)) ]
      none)
    definitions := []
    parameters :=
      [ ⟨"D", false, .Number 0, .Number 255, none⟩,
        ⟨"S", false, .Number 0, .Number 255,
          some (.Subtract (.Number 255) (.Identifier "D"))⟩,
        ⟨"F", false, .Number 0, .Number 255, none⟩ ] }

/-- The variable table of the `Irp::encode` doc-test: `D=255, S=52, F=1`, each
8 bits wide. -/
def nec1Vars : Vartable :=
  ((Vartable.new.set "D" 255 8).set "S" 52 8).set "F" 1 8

/-- The decimal digit character for `n < 10`. -/
def digitCh (n : Nat) : Char := Char.ofNat (48 + n)

/-- The lowercase hexadecimal digit character for `n < 16` (Rust `{:x}`). -/
def hexCh (n : Nat) : Char :=
  if n < 10 then Char.ofNat (48 + n) else Char.ofNat (87 + n)

/-- Decimal digit list of `n`, with fuel for structural recursion. -/
def decAux : Nat → Nat → List Char
  | 0, _ => []
  | f + 1, n => if n < 10 then [digitCh n] else decAux f (n / 10) ++ [digitCh (n % 10)]

/-- Decimal rendering of a natural number (Rust `{}` on an unsigned value). -/
def decRepr (n : Nat) : String := ⟨decAux (n + 1) n⟩

/-- Hexadecimal digit list of `n`, with fuel for structural recursion. -/
def hexAux : Nat → Nat → List Char
  | 0, _ => []
  | f + 1, n => if n < 16 then [hexCh n] else hexAux f (n / 16) ++ [hexCh (n % 16)]

/-- Lowercase hexadecimal rendering of a natural number (Rust `{:x}`). -/
def hexRepr (n : Nat) : String := ⟨hexAux (n + 1) n⟩

/-- Rendering of `frequency as f64 / 1000.0` under Rust `{}` formatting: the
quotient has at most three decimal places and Rust's shortest round-trip `f64`
display prints exactly those, without trailing zeros. -/
def kiloRepr (freq : Nat) : String :=
  let i := freq / 1000
  let r := freq % 1000
  if r = 0 then decRepr i
  else if r % 100 = 0 then decRepr i ++ "." ++ ⟨[digitCh (r / 100)]⟩
  else if r % 10 = 0 then
    decRepr i ++ "." ++ ⟨[digitCh (r / 100), digitCh (r / 10 % 10)]⟩
  else
    decRepr i ++ "." ++ ⟨[digitCh (r / 100), digitCh (r / 10 % 10), digitCh (r % 10)]⟩

/-- Rust `String::pop`: remove the last character (all characters written by
`LircRemote::irp` are ASCII, so popping a byte pops a character). -/
def popS (s : String) : String := ⟨s.data.dropLast⟩

/-- A lircd.conf remote, with the fields that `LircRemote::irp`
(`src/lircd_conf/irp.rs`) reads; `flags_space_first` stands for
`flags.contains(Flags::SPACE_FIRST)` and `repeat'` for the `repeat` field
(a Lean keyword). -/
structure LircRemote where
  frequency : Nat
  duty_cycle : Nat
  flags_space_first : Bool
  bit : List (Nat × Nat)
  header : Nat × Nat
  plead : Nat
  pre_data : Nat
  pre_data_bits : Nat
  pre : Nat × Nat
  bits : Nat
  post_data : Nat
  post_data_bits : Nat
  post : Nat × Nat
  ptrail : Nat
  foot : Nat × Nat
  gap : Nat
  repeat' : Nat × Nat

/-- One iteration body of the bit-spec loop of `LircRemote::irp`: the pushed
text for a `(pulse, space)` pair (each push guarded by the value being
positive, space first when the flag says so). -/
def bitAltFrag (space_first : Bool) (pulse space : Nat) : String :=
  if space_first then
    (if space > 0 then "-" ++ decRepr space ++ "," else "")
      ++ (if pulse > 0 then decRepr pulse ++ "," else "")
  else
    (if pulse > 0 then decRepr pulse ++ "," else "")
      ++ (if space > 0 then "-" ++ decRepr space ++ "," else "")

/-- The bit-spec loop of `LircRemote::irp`: pairs are rendered and separated by
`|` (the pop removes the trailing comma); a `(0, 0)` pair breaks out before the
pop, leaving whatever the previous iterations wrote. -/
def bitLoop (space_first : Bool) : List (Nat × Nat) → String
  | [] => ""
  | (pulse, space) :: rest =>
    let frag := bitAltFrag space_first pulse space
    if pulse = 0 ∧ space = 0 then frag
    else popS frag ++ "|" ++ bitLoop space_first rest

/-- The stream items of `LircRemote::irp` between `(` and the repeat handling,
in source order: header, plead, pre-data, `CODE`, post-data, ptrail, foot,
extent gap — each fragment ending in a comma. -/
def streamItems (r : LircRemote) : String :=
  (if r.header.1 ≠ 0 ∧ r.header.2 ≠ 0 then
    decRepr r.header.1 ++ ",-" ++ decRepr r.header.2 ++ "," else "")
  ++ (if r.plead ≠ 0 then decRepr r.plead ++ "," else "")
  ++ (if r.pre_data_bits ≠ 0 then
      "0x" ++ hexRepr r.pre_data ++ ":" ++ decRepr r.pre_data_bits ++ ","
        ++ (if r.pre.1 ≠ 0 ∧ r.pre.2 ≠ 0 then
          decRepr r.pre.1 ++ ",-" ++ decRepr r.pre.2 ++ "," else "")
    else "")
  ++ "CODE:" ++ decRepr r.bits ++ ","
  ++ (if r.post_data_bits ≠ 0 then
      "0x" ++ hexRepr r.post_data ++ ":" ++ decRepr r.post_data_bits ++ ","
        ++ (if r.post.1 ≠ 0 ∧ r.post.2 ≠ 0 then
          decRepr r.post.1 ++ ",-" ++ decRepr r.post.2 ++ "," else "")
    else "")
  ++ (if r.ptrail ≠ 0 then decRepr r.ptrail ++ "," else "")
  ++ (if r.foot.1 ≠ 0 ∧ r.foot.2 ≠ 0 then
    decRepr r.foot.1 ++ ",-" ++ decRepr r.foot.2 ++ "," else "")
  ++ (if r.gap ≠ 0 then "^" ++ decRepr r.gap ++ "," else "")

/-- The repeat-branch suffix of `LircRemote::irp`: `({repeat.0},-{repeat.1},`
plus the optional ptrail, the trailing comma popped, then `)*)`.  The popped
fragment is the just-pushed text, which always ends in a comma. -/
def repeatEnd (r : LircRemote) : String :=
  popS ("(" ++ decRepr r.repeat'.1 ++ ",-" ++ decRepr r.repeat'.2 ++ ","
      ++ (if r.ptrail ≠ 0 then decRepr r.ptrail ++ "," else ""))
    ++ ")*)"

/-- The string built by `LircRemote::irp` (`src/lircd_conf/irp.rs`), assuming
`1u64 << bits` does not overflow: general spec (frequency, duty cycle, always
`msb`), bit spec, stream, repeat handling — a nested `(...)*` sub-stream when
both repeat values are set, a `+` marker on the whole stream otherwise — and
the `[CODE:0..(1<<bits)-1]` parameter spec. -/
def irpStr (r : LircRemote) : String :=
  let s1 := "\x7b"
    ++ (if r.frequency ≠ 0 then kiloRepr r.frequency ++ "k," else "")
    ++ (if r.duty_cycle ≠ 0 then decRepr r.duty_cycle ++ "%," else "")
    ++ "msb\x7d<" ++ bitLoop r.flags_space_first r.bit
  let s2 := popS s1 ++ ">(" ++ streamItems r
  let s3 :=
    if r.repeat'.1 ≠ 0 ∧ r.repeat'.2 ≠ 0 then s2 ++ repeatEnd r
    else popS s2 ++ ")+"
  s3 ++ " [CODE:0.." ++ decRepr ((1 <<< r.bits) - 1) ++ "]"

/-- `LircRemote::irp`, with the `1u64 << self.bits` shift made explicit: for
`bits < 64` the shift fits `u64` and the function returns the IRP string; for
`bits ≥ 64` the shift overflows (a Rust arithmetic-overflow panic), modelled as
`none`. -/
def LircRemote.irp (r : LircRemote) : Option String :=
  if r.bits < 64 then some (irpStr r) else none

/-- A concrete NEC-style remote used as evaluation witness. -/
def sampleRemote : LircRemote where
  frequency := 38000
  duty_cycle := 0
  flags_space_first := false
  bit := [(564, 1692), (564, 564), (0, 0), (0, 0)]
  header := (9024, 4512)
  plead := 0
  pre_data := 0
  pre_data_bits := 0
  pre := (0, 0)
  bits := 16
  post_data := 0
  post_data_bits := 0
  post := (0, 0)
  ptrail := 564
  foot := (0, 0)
  gap := 108000
  repeat' := (9024, 2250)

/-- Modelled from the spec: `Pronto::parse` over the 4-digit hex words
(external-interfaces section).  Word 0 is the format tag — only the long
learned forms `0x0000` (modulated) and `0x0100` (unmodulated) exist, short
formats fail; word 1 is the carrier divisor (period = divisor × 0.241246 µs);
words 2 and 3 count the intro and repeat burst pairs, whose `(on, off)` entries
in carrier periods follow and are converted to microseconds. -/
def Pronto.parse (words : List Nat) : Option Pronto :=
  match words with
  | fmt :: divisor :: introLen :: repeatLen :: rest =>
    if (fmt = 0 ∨ fmt = 256) ∧ divisor ≠ 0
        ∧ rest.length = 2 * introLen + 2 * repeatLen then
      let toMicros : Nat → F64 := fun w => ⟨241246 * divisor * w, 1000000⟩
      let frequency : F64 := ⟨1000000000000, 241246 * divisor⟩
      let intro := (rest.take (2 * introLen)).map toMicros
      let rep := (rest.drop (2 * introLen)).map toMicros
      if fmt = 0 then some (.LearnedModulated frequency intro rep)
      else some (.LearnedUnmodulated frequency intro rep)
    else none
  | _ => none

/-- Alternation checker: `wfFG p l` holds when the polarities of `l` are
`p, !p, p, ...` — with `p = true` this is exactly the `Message` invariant that
even indices are flashes and odd indices are gaps. -/
def wfFG : Bool → List Event → Bool
  | _, [] => true
  | p, e :: rest => (e.pol == p) && wfFG (!p) rest

/-- The polarity expected right after an alternating list that starts with
expectation `p`. -/
def endExp : Bool → List Event → Bool
  | p, [] => p
  | p, _ :: rest => endExp (!p) rest

/-- The polarity of the first event (`true` for the empty list). -/
def headPol : List Event → Bool
  | [] => true
  | e :: _ => e.pol

/-- Modelled from the spec: the well-formedness of a general spec as the parser
produces it — a duty cycle, when given, is a percentage between 1 and 99
(data-model section on `Message`; `parser.rs` is not among the sources). -/
def GeneralSpec.parsedWF (gs : GeneralSpec) : Prop :=
  ∀ dc, gs.duty_cycle = some dc → 1 ≤ dc ∧ dc ≤ 99

/-- A concrete short-form Pronto header (format tag `0x900a`), for the witness
that short formats are rejected. -/
def prontoShortForm : List Nat := [36874, 108, 0, 1, 22, 1757]

/-- A concrete well-formed long Pronto word list (tag 0, one intro pair). -/
def prontoLongForm : List Nat := [0, 108, 1, 0, 22, 1757]

/-- A concrete stream (the nested NEC1 repeat part) used as evaluation
witness. -/
def sampleStream : IrStream :=
  .mk
    [ .List [.FlashConstant ⟨1, 1⟩ .Units, .GapConstant ⟨1, 1⟩ .Units],
      .List [.FlashConstant ⟨1, 1⟩ .Units, .GapConstant ⟨3, 1⟩ .Units] ]
    [ .FlashConstant ⟨16, 1⟩ .Units,
      .GapConstant ⟨4, 1⟩ .Units,
      .FlashConstant ⟨1, 1⟩ .Units,
      .ExtentConstant ⟨108, 1⟩ .Milliseconds ]
    (some .Any)

/-- `'['` does not occur in the string — the shape used to state that the
parameter spec produced by `LircRemote::irp` is the only bracketed section of
the output. -/
def noBrk (s : String) : Prop := ∀ c ∈ s.data, c ≠ '['

instance (s : String) : Decidable (noBrk s) := by
  unfold noBrk
  infer_instance

/-- C1: decoding the RC5 IRP with a decoder built with absolute tolerance 100
microseconds, relative tolerance 30 percent and trailing gap 20000
microseconds, fed the doc-test input sequence, yields exactly the parameter map
`D = 30, F = 1, T = 1`. -/
theorem rc5_decode_doctest :
    (rc5Run 100 30 20000 rc5DoctestInput).results
      = [[("D", 30), ("F", 1), ("T", 1)]] := by
  decide

/-- C2: encoding the NEC1 IRP with `D = 255, S = 52, F = 1` and repeat count 0
succeeds and produces a message with carrier 38400 Hz whose first six raw
durations are `9024, 4512, 564, 1692, 564, 1692`. -/
theorem nec1_encode_doctest :
    (nec1Irp.encode nec1Vars 0).isSome = true
    ∧ (nec1Irp.encode nec1Vars 0).map Message.carrier = some (some 38400)
    ∧ (nec1Irp.encode nec1Vars 0).map (fun m => m.raw.take 6)
        = some [9024, 4512, 564, 1692, 564, 1692] := by
  decide

/-- C5: a stream is exactly an ordered item list, an optional bit-spec of one
to four alternatives (parser bound), and an optional repeat marker from the
closed set `*`, `+`, `n`, `n+` — no other marker form is representable. -/
theorem irstream_repeat_marker_shape :
    (∀ m : RepeatMarker,
      m = .Any ∨ m = .OneOrMore ∨ (∃ k, m = .Count k) ∨ (∃ k, m = .CountOrMore k))
    ∧ (∀ s : IrStream, ∃ bs items rep,
        s = .mk bs items rep ∧ s.bit_spec = bs ∧ s.stream = items ∧ s.repeat' = rep)
    ∧ (∀ s : IrStream, s.parsedWF →
        s.bit_spec.length = 0 ∨ (1 ≤ s.bit_spec.length ∧ s.bit_spec.length ≤ 4)) := by
  refine ⟨?_, ?_, ?_⟩
  · intro m
    cases m with
    | Any => exact Or.inl rfl
    | OneOrMore => exact Or.inr (Or.inl rfl)
    | Count k => exact Or.inr (Or.inr (Or.inl ⟨k, rfl⟩))
    | CountOrMore k => exact Or.inr (Or.inr (Or.inr ⟨k, rfl⟩))
  · intro s
    cases s with
    | mk bs items rep => exact ⟨bs, items, rep, rfl, rfl, rfl, rfl⟩
  · intro s h
    unfold IrStream.parsedWF at h
    omega

/-- C5 witness: the parser bound holds of a concrete stream and yields the
alternative-count disjunction there. -/
theorem irstream_repeat_marker_shape_witness :
    sampleStream.parsedWF
    ∧ (sampleStream.bit_spec.length = 0
        ∨ (1 ≤ sampleStream.bit_spec.length ∧ sampleStream.bit_spec.length ≤ 4)) :=
  ⟨by decide, irstream_repeat_marker_shape.2.2 sampleStream (by decide)⟩

/-- C6: every decoder input is exactly a `Flash`, a `Gap` (32-bit unsigned
microsecond durations) or `Reset`, and `Reset` is a hard packet boundary: it
re-seeds the live path of the decoder from the start, keeping only the already
queued results. -/
theorem infrared_data_shape :
    (∀ x : InfraredData,
      (∃ d, x = .Flash d) ∨ (∃ d, x = .Gap d) ∨ x = .Reset)
    ∧ (∀ s : Rc5Decoder,
      (rc5Step s .Reset).slots = [] ∧ (rc5Step s .Reset).dead = false
        ∧ (rc5Step s .Reset).results = s.results) := by
  constructor
  · intro x
    cases x with
    | Flash d => exact Or.inl ⟨d, rfl⟩
    | Gap d => exact Or.inr (Or.inl ⟨d, rfl⟩)
    | Reset => exact Or.inr (Or.inr rfl)
  · intro s
    exact ⟨rfl, rfl, rfl⟩

/-- C7: a parsed Pronto code is exactly one of the two long learned forms —
modulated (tag 0) or unmodulated (tag 0x0100), each carrying a frequency plus
intro and repeat lists — and parsing any word list with another format tag
(the short forms) fails. -/
theorem pronto_long_forms_only :
    (∀ p : Pronto,
      (∃ fr i rep, p = .LearnedModulated fr i rep)
        ∨ (∃ fr i rep, p = .LearnedUnmodulated fr i rep))
    ∧ (∀ ws p, Pronto.parse ws = some p → ws.head? = some 0 ∨ ws.head? = some 256)
    ∧ (∀ w ws, w ≠ 0 → w ≠ 256 → Pronto.parse (w :: ws) = none) := by
  refine ⟨?_, ?_, ?_⟩
  · intro p
    cases p with
    | LearnedModulated fr i rep => exact Or.inl ⟨fr, i, rep, rfl⟩
    | LearnedUnmodulated fr i rep => exact Or.inr ⟨fr, i, rep, rfl⟩
  · intro ws p h
    match ws with
    | [] => simp [Pronto.parse] at h
    | [_] => simp [Pronto.parse] at h
    | [_, _] => simp [Pronto.parse] at h
    | [_, _, _] => simp [Pronto.parse] at h
    | fmt :: divisor :: il :: rl :: rest =>
      simp only [Pronto.parse] at h
      by_cases hc : (fmt = 0 ∨ fmt = 256) ∧ divisor ≠ 0
          ∧ rest.length = 2 * il + 2 * rl
      · rcases hc.1 with h0 | h256
        · exact Or.inl (by simp [h0])
        · exact Or.inr (by simp [h256])
      · rw [if_neg hc] at h
        exact absurd h (by simp)
  · intro w ws h0 h256
    match ws with
    | [] => rfl
    | [_] => rfl
    | [_, _] => rfl
    | divisor :: il :: rl :: rest =>
      simp only [Pronto.parse]
      have hng : ¬((w = 0 ∨ w = 256) ∧ divisor ≠ 0
          ∧ rest.length = 2 * il + 2 * rl) :=
        fun hc => hc.1.elim h0 h256
      rw [if_neg hng]

/-- C7 witness: a concrete long form parses to a learned-modulated code with
tag 0 at the head, and a concrete short-form tag is rejected. -/
theorem pronto_long_forms_only_witness :
    (prontoLongForm.head? = some 0 ∨ prontoLongForm.head? = some 256)
    ∧ Pronto.parse prontoShortForm = none :=
  ⟨pronto_long_forms_only.2.1 prontoLongForm
      (.LearnedModulated ⟨1000000000000, 241246 * 108⟩
        [⟨241246 * 108 * 22, 1000000⟩, ⟨241246 * 108 * 1757, 1000000⟩] [])
      (by decide),
    pronto_long_forms_only.2.2 36874 [108, 0, 1, 22, 1757] (by decide) (by decide)⟩

theorem mergeAdjAux_headPol (l : List Event) :
    ∀ cur : Event, headPol (mergeAdjAux cur l) = cur.pol := by
  induction l with
  | nil => intro cur; rfl
  | cons b rest ih =>
    intro cur
    by_cases h : cur.pol = b.pol
    · simp only [mergeAdjAux, if_pos h]
      exact ih ⟨cur.pol, cur.dur + b.dur⟩
    · simp only [mergeAdjAux, if_neg h]
      rfl

theorem mergeAdjAux_wf (l : List Event) :
    ∀ cur : Event, wfFG cur.pol (mergeAdjAux cur l) = true := by
  induction l with
  | nil =>
    intro cur
    simp [mergeAdjAux, wfFG]
  | cons b rest ih =>
    intro cur
    by_cases h : cur.pol = b.pol
    · simp only [mergeAdjAux, if_pos h]
      exact ih ⟨cur.pol, cur.dur + b.dur⟩
    · simp only [mergeAdjAux, if_neg h, wfFG]
      have hb : b.pol = !cur.pol := by
        cases hc : cur.pol <;> cases hbp : b.pol <;> simp_all
      have := ih b
      rw [hb] at this
      simp [this]

theorem mergeAdj_wf (l : List Event) :
    wfFG (headPol (mergeAdj l)) (mergeAdj l) = true := by
  cases l with
  | nil => rfl
  | cons e rest =>
    simp only [mergeAdj, mergeAdjAux_headPol]
    exact mergeAdjAux_wf rest e

theorem dropLeadingGaps_wf (l : List Event) :
    ∀ p, wfFG p l = true → wfFG true (dropLeadingGaps l) = true := by
  induction l with
  | nil => intro p _; rfl
  | cons e rest ih =>
    intro p h
    simp only [wfFG, Bool.and_eq_true, beq_iff_eq] at h
    by_cases he : e.pol
    · have hp : p = true := by rw [← h.1, he]
      subst hp
      simp only [dropLeadingGaps, List.dropWhile, he, Bool.not_true]
      simp only [wfFG, Bool.and_eq_true, beq_iff_eq]
      exact ⟨he, h.2⟩
    · have hne : (!e.pol) = true := by simp [he]
      simp only [dropLeadingGaps, List.dropWhile, hne]
      exact ih (!p) h.2

theorem wfFG_append_single (l : List Event) :
    ∀ p (x : Event), wfFG p l = true → x.pol = endExp p l →
      wfFG p (l ++ [x]) = true := by
  induction l with
  | nil =>
    intro p x _ hx
    simp [wfFG, endExp] at hx ⊢
    exact hx
  | cons e rest ih =>
    intro p x h hx
    simp only [wfFG, Bool.and_eq_true, beq_iff_eq] at h
    simp only [List.cons_append, wfFG, Bool.and_eq_true, beq_iff_eq]
    exact ⟨h.1, ih (!p) x h.2 hx⟩

theorem endExp_parity (l : List Event) :
    ∀ p, endExp p l = if l.length % 2 = 0 then p else !p := by
  induction l with
  | nil => intro p; rfl
  | cons e rest ih =>
    intro p
    simp only [endExp, ih (!p), List.length_cons]
    by_cases h : rest.length % 2 = 0
    · have h1 : (rest.length + 1) % 2 = 1 := by omega
      simp [h, h1]
    · have h1 : (rest.length + 1) % 2 = 0 := by omega
      simp [h, h1]

theorem wfFG_getLast (l : List Event) :
    ∀ p e, wfFG p l = true → l.getLast? = some e → e.pol = !(endExp p l) := by
  induction l with
  | nil => intro p e _ hl; simp at hl
  | cons b rest ih =>
    intro p e h hl
    simp only [wfFG, Bool.and_eq_true, beq_iff_eq] at h
    cases rest with
    | nil =>
      simp only [List.getLast?_singleton, Option.some_inj] at hl
      subst hl
      simp only [endExp]
      rw [h.1]
      cases p <;> rfl
    | cons c rest' =>
      have hl' : (c :: rest').getLast? = some e := by
        simpa [List.getLast?_cons_cons] using hl
      exact ih (!p) e h.2 hl'

theorem addTrailingGap_wf (l : List Event) (h : wfFG true l = true) :
    wfFG true (addTrailingGap l) = true
      ∧ (addTrailingGap l).length % 2 = 0 := by
  unfold addTrailingGap
  cases hl : l.getLast? with
  | none => exact ⟨rfl, rfl⟩
  | some e =>
    have hlast := wfFG_getLast l true e h hl
    by_cases he : e.pol
    · have hend : endExp true l = false := by
        cases hz : endExp true l
        · rfl
        · rw [hz] at hlast; rw [hlast] at he; simp at he
      have hodd : l.length % 2 = 1 := by
        have := endExp_parity l true
        rw [hend] at this
        by_cases hp : l.length % 2 = 0
        · rw [if_pos hp] at this; simp at this
        · omega
      constructor
      · simp only [he, if_true]
        exact wfFG_append_single l true ⟨false, trailingGapDur⟩ h (by simp [hend])
      · simp only [he, if_true, List.length_append, List.length_singleton]
        omega
    · have hend : endExp true l = true := by
        cases hz : endExp true l
        · rw [hz] at hlast; simp at hlast; rw [hlast] at he; simp at he
        · rfl
      have heven : l.length % 2 = 0 := by
        have := endExp_parity l true
        rw [hend] at this
        by_cases hp : l.length % 2 = 0
        · exact hp
        · rw [if_neg hp] at this; simp at this
      simp only [he, if_false]
      exact ⟨h, heven⟩

theorem wfFG_map_capEvent (l : List Event) :
    ∀ p, wfFG p (l.map capEvent) = wfFG p l := by
  induction l with
  | nil => intro p; rfl
  | cons e rest ih =>
    intro p
    simp only [List.map_cons, wfFG, capEvent, ih (!p)]

theorem normalizeEvents_wf (l : List Event) :
    wfFG true (normalizeEvents l) = true
      ∧ (normalizeEvents l).length % 2 = 0 := by
  unfold normalizeEvents
  have h1 := mergeAdj_wf l
  have h2 := dropLeadingGaps_wf (mergeAdj l) (headPol (mergeAdj l)) h1
  have h3 := addTrailingGap_wf (dropLeadingGaps (mergeAdj l)) h2
  refine ⟨?_, ?_⟩
  · rw [wfFG_map_capEvent]
    exact h3.1
  · rw [List.length_map]
    exact h3.2

theorem normalizeEvents_dur_lt (l : List Event) :
    ∀ e ∈ normalizeEvents l, e.dur < 2 ^ 32 := by
  intro e he
  unfold normalizeEvents at he
  rcases List.mem_map.mp he with ⟨x, _, hx⟩
  rw [← hx]
  simp only [capEvent, capDur]
  omega

theorem encodeEvents_normalized (irp : Irp) (vars : Vartable) (n : Nat)
    (evs : List Event) (h : irp.encodeEvents vars n = some evs) :
    ∃ l, evs = normalizeEvents l := by
  unfold Irp.encodeEvents at h
  simp only [bind, Option.bind_eq_some] at h
  obtain ⟨v1, h1, v2, h2, ⟨vv, l⟩, h3, hev⟩ := h
  simp only [pure, Option.some.injEq] at hev
  exact ⟨l, hev.symm⟩

/-- C3: whenever `Irp::encode` succeeds, the raw sequence of the returned
message alternates polarity — the emitted events satisfy the flash/gap
alternation starting on a flash (even indices flash, odd indices gap, no two
neighbours equal) — and it ends on a gap, so its length is even. -/
theorem encode_raw_alternates (irp : Irp) (vars : Vartable) (n : Nat)
    (msg : Message) (h : irp.encode vars n = some msg) :
    ∃ evs : List Event, msg.raw = evs.map Event.dur
      ∧ wfFG true evs = true ∧ evs.length % 2 = 0 := by
  unfold Irp.encode at h
  rcases he : irp.encodeEvents vars n with _ | evs
  · rw [he] at h
    simp at h
  · rw [he] at h
    simp only [Option.map_some', Option.some.injEq] at h
    obtain ⟨l, hl⟩ := encodeEvents_normalized irp vars n evs he
    refine ⟨evs, ?_, ?_, ?_⟩
    · rw [← h]
    · rw [hl]
      exact (normalizeEvents_wf l).1
    · rw [hl]
      exact (normalizeEvents_wf l).2

/-- C3 witness: the NEC1 doc-test encoding instantiates the alternation
invariant. -/
theorem encode_raw_alternates_witness :
    ∃ evs : List Event,
      ((nec1Irp.encode nec1Vars 0).getD ⟨none, none, []⟩).raw = evs.map Event.dur
        ∧ wfFG true evs = true ∧ evs.length % 2 = 0 :=
  encode_raw_alternates nec1Irp nec1Vars 0
    ((nec1Irp.encode nec1Vars 0).getD ⟨none, none, []⟩) (by decide)

/-- C4: in every message produced by the encoder the carrier is the optional
general-spec carrier (absent = unknown, `some 0` = unmodulated, passed through
unchanged), the duty cycle — when present — is a percentage between 1 and 99
(given a general spec the parser can produce), and every raw duration is a
non-negative 32-bit quantity. -/
theorem message_field_contract (irp : Irp) (vars : Vartable) (n : Nat)
    (msg : Message) (hwf : irp.general_spec.parsedWF)
    (h : irp.encode vars n = some msg) :
    msg.carrier = irp.general_spec.carrier
      ∧ (∀ dc, msg.duty_cycle = some dc → 1 ≤ dc ∧ dc ≤ 99)
      ∧ (∀ d ∈ msg.raw, d < 2 ^ 32) := by
  unfold Irp.encode at h
  rcases he : irp.encodeEvents vars n with _ | evs
  · rw [he] at h
    simp at h
  · rw [he] at h
    simp only [Option.map_some', Option.some.injEq] at h
    obtain ⟨l, hl⟩ := encodeEvents_normalized irp vars n evs he
    refine ⟨?_, ?_, ?_⟩
    · rw [← h]
    · intro dc hdc
      rw [← h] at hdc
      exact hwf dc hdc
    · intro d hd
      rw [← h] at hd
      rcases List.mem_map.mp hd with ⟨e, hel, hde⟩
      rw [hl] at hel
      rw [← hde]
      exact normalizeEvents_dur_lt l e hel

/-- C4 witness: the field contract holds of the NEC1 doc-test message. -/
theorem message_field_contract_witness :
    ((nec1Irp.encode nec1Vars 0).getD ⟨none, none, []⟩).carrier
        = nec1Irp.general_spec.carrier
      ∧ (∀ dc, ((nec1Irp.encode nec1Vars 0).getD ⟨none, none, []⟩).duty_cycle
          = some dc → 1 ≤ dc ∧ dc ≤ 99)
      ∧ (∀ d ∈ ((nec1Irp.encode nec1Vars 0).getD ⟨none, none, []⟩).raw,
          d < 2 ^ 32) :=
  message_field_contract nec1Irp nec1Vars 0
    ((nec1Irp.encode nec1Vars 0).getD ⟨none, none, []⟩)
    (fun _ hd => Option.noConfusion hd) (by decide)

theorem popS_append (x y : String) (h : y.data ≠ []) :
    popS (x ++ y) = x ++ popS y := by
  apply String.ext
  simp only [popS, String.data_append]
  exact List.dropLast_append_of_ne_nil x.data h

theorem strAppendEmpty (s : String) : s ++ "" = s := by
  apply String.ext
  simp [String.data_append]

theorem popS_comma (x : String) : popS (x ++ ",") = x := by
  rw [popS_append x "," (List.cons_ne_nil _ _)]
  have h : popS "," = "" := rfl
  rw [h, strAppendEmpty]

theorem noBrk_append {x y : String} (hx : noBrk x) (hy : noBrk y) :
    noBrk (x ++ y) := by
  intro c hc
  rw [String.data_append] at hc
  rcases List.mem_append.mp hc with h | h
  · exact hx c h
  · exact hy c h

theorem noBrk_popS {s : String} (hs : noBrk s) : noBrk (popS s) := by
  intro c hc
  exact hs c (List.dropLast_subset _ hc)

theorem noBrk_ite (c : Prop) [Decidable c] {x y : String}
    (hx : noBrk x) (hy : noBrk y) : noBrk (if c then x else y) := by
  split
  · exact hx
  · exact hy

theorem digitCh_ne (k : Nat) (hk : k < 10) : digitCh k ≠ '[' := by
  interval_cases k <;> decide

theorem hexCh_ne (k : Nat) (hk : k < 16) : hexCh k ≠ '[' := by
  interval_cases k <;> decide

theorem decAux_mem (f : Nat) :
    ∀ n c, c ∈ decAux f n → ∃ k, k < 10 ∧ c = digitCh k := by
  induction f with
  | zero =>
    intro n c hc
    simp [decAux] at hc
  | succ f ih =>
    intro n c hc
    simp only [decAux] at hc
    by_cases h : n < 10
    · rw [if_pos h] at hc
      simp at hc
      exact ⟨n, h, hc⟩
    · rw [if_neg h] at hc
      rcases List.mem_append.mp hc with h1 | h1
      · exact ih _ c h1
      · simp at h1
        exact ⟨n % 10, Nat.mod_lt _ (by omega), h1⟩

theorem hexAux_mem (f : Nat) :
    ∀ n c, c ∈ hexAux f n → ∃ k, k < 16 ∧ c = hexCh k := by
  induction f with
  | zero =>
    intro n c hc
    simp [hexAux] at hc
  | succ f ih =>
    intro n c hc
    simp only [hexAux] at hc
    by_cases h : n < 16
    · rw [if_pos h] at hc
      simp at hc
      exact ⟨n, h, hc⟩
    · rw [if_neg h] at hc
      rcases List.mem_append.mp hc with h1 | h1
      · exact ih _ c h1
      · simp at h1
        exact ⟨n % 16, Nat.mod_lt _ (by omega), h1⟩

theorem noBrk_decRepr (n : Nat) : noBrk (decRepr n) := by
  intro c hc
  obtain ⟨k, hk, hck⟩ := decAux_mem (n + 1) n c hc
  rw [hck]
  exact digitCh_ne k hk

theorem noBrk_hexRepr (n : Nat) : noBrk (hexRepr n) := by
  intro c hc
  obtain ⟨k, hk, hck⟩ := hexAux_mem (n + 1) n c hc
  rw [hck]
  exact hexCh_ne k hk

theorem noBrk_digitList (ks : List Nat) (hks : ∀ k ∈ ks, k < 10) :
    noBrk ⟨ks.map digitCh⟩ := by
  intro c hc
  rcases List.mem_map.mp hc with ⟨k, hkm, hck⟩
  rw [← hck]
  exact digitCh_ne k (hks k hkm)

theorem noBrk_kiloRepr (n : Nat) : noBrk (kiloRepr n) := by
  simp only [kiloRepr]
  have hd1 : n % 1000 / 100 < 10 := by omega
  have hd2 : n % 1000 / 10 % 10 < 10 := by omega
  have hd3 : n % 1000 % 10 < 10 := by omega
  have hone : noBrk ⟨[digitCh (n % 1000 / 100)]⟩ :=
    noBrk_digitList [n % 1000 / 100] (by simpa using hd1)
  have htwo : noBrk ⟨[digitCh (n % 1000 / 100), digitCh (n % 1000 / 10 % 10)]⟩ :=
    noBrk_digitList [n % 1000 / 100, n % 1000 / 10 % 10]
      (by intro k hk; simp at hk; rcases hk with h | h <;> omega)
  have hthree : noBrk ⟨[digitCh (n % 1000 / 100), digitCh (n % 1000 / 10 % 10),
      digitCh (n % 1000 % 10)]⟩ :=
    noBrk_digitList [n % 1000 / 100, n % 1000 / 10 % 10, n % 1000 % 10]
      (by intro k hk; simp at hk; rcases hk with h | h | h <;> omega)
  split_ifs
  · exact noBrk_decRepr _
  · exact noBrk_append (noBrk_append (noBrk_decRepr _) (by decide)) hone
  · exact noBrk_append (noBrk_append (noBrk_decRepr _) (by decide)) htwo
  · exact noBrk_append (noBrk_append (noBrk_decRepr _) (by decide)) hthree

theorem noBrk_bitAltFrag (sf : Bool) (p s : Nat) : noBrk (bitAltFrag sf p s) := by
  unfold bitAltFrag
  repeat'
    first
    | apply noBrk_ite
    | apply noBrk_append
    | exact noBrk_decRepr _
    | decide

theorem noBrk_bitLoop (sf : Bool) (l : List (Nat × Nat)) :
    noBrk (bitLoop sf l) := by
  induction l with
  | nil => exact (show noBrk "" by decide)
  | cons pr rest ih =>
    rcases pr with ⟨p, s⟩
    unfold bitLoop
    split
    · exact noBrk_bitAltFrag sf p s
    · exact noBrk_append
        (noBrk_append (noBrk_popS (noBrk_bitAltFrag sf p s)) (by decide)) ih

theorem noBrk_streamItems (r : LircRemote) : noBrk (streamItems r) := by
  unfold streamItems
  repeat'
    first
    | apply noBrk_append
    | apply noBrk_ite
    | exact noBrk_decRepr _
    | exact noBrk_hexRepr _
    | decide

theorem noBrk_repeatEnd (r : LircRemote) : noBrk (repeatEnd r) := by
  unfold repeatEnd
  apply noBrk_append
  · apply noBrk_popS
    repeat'
      first
      | apply noBrk_append
      | apply noBrk_ite
      | exact noBrk_decRepr _
      | decide
  · decide

theorem data_ne_nil_right (x y : String) (h : y.data ≠ []) :
    (x ++ y).data ≠ [] := by
  rw [String.data_append]
  intro hc
  exact h (List.append_eq_nil.mp hc).2

theorem irpStr_decomp (r : LircRemote) :
    irpStr r
      = ("\x7b" ++ ((if r.frequency ≠ 0 then kiloRepr r.frequency ++ "k," else "")
            ++ (if r.duty_cycle ≠ 0 then decRepr r.duty_cycle ++ "%," else ""))
          ++ "msb\x7d")
        ++ ((if r.repeat'.1 ≠ 0 ∧ r.repeat'.2 ≠ 0 then
              (popS ("<" ++ bitLoop r.flags_space_first r.bit) ++ ">("
                  ++ streamItems r) ++ repeatEnd r
            else
              popS (popS ("<" ++ bitLoop r.flags_space_first r.bit) ++ ">("
                  ++ streamItems r) ++ ")+")
          ++ (" [CODE:0.." ++ decRepr ((1 <<< r.bits) - 1) ++ "]")) := by
  have hsplit : ("msb\x7d<" : String) = "msb\x7d" ++ "<" := rfl
  have hne1 : (("<" ++ bitLoop r.flags_space_first r.bit) : String).data ≠ [] := by
    intro hc
    have hlen := congrArg List.length hc
    have h1 : (("<" : String)).data.length = 1 := rfl
    simp only [String.data_append, List.length_append, h1, List.length_nil] at hlen
    omega
  have hXne : ((popS ("<" ++ bitLoop r.flags_space_first r.bit)
      ++ (">(" ++ streamItems r)) : String).data ≠ [] := by
    intro hc
    have hlen := congrArg List.length hc
    have h2 : (((">(" : String))).data.length = 2 := rfl
    simp only [String.data_append, List.length_append, h2, List.length_nil] at hlen
    omega
  have harg : "\x7b" ++ (if r.frequency ≠ 0 then kiloRepr r.frequency ++ "k," else "")
        ++ (if r.duty_cycle ≠ 0 then decRepr r.duty_cycle ++ "%," else "")
        ++ "msb\x7d<" ++ bitLoop r.flags_space_first r.bit
      = ("\x7b" ++ ((if r.frequency ≠ 0 then kiloRepr r.frequency ++ "k," else "")
            ++ (if r.duty_cycle ≠ 0 then decRepr r.duty_cycle ++ "%," else ""))
          ++ "msb\x7d")
        ++ ("<" ++ bitLoop r.flags_space_first r.bit) := by
    rw [hsplit]
    simp only [String.append_assoc]
  simp only [irpStr]
  rw [harg, popS_append _ _ hne1]
  by_cases hrep : r.repeat'.1 ≠ 0 ∧ r.repeat'.2 ≠ 0
  · rw [if_pos hrep, if_pos hrep]
    simp only [String.append_assoc]
  · rw [if_neg hrep, if_neg hrep]
    simp only [String.append_assoc]
    have hA3 : (("msb\x7d" ++ (popS ("<" ++ bitLoop r.flags_space_first r.bit)
        ++ (">(" ++ streamItems r))) : String).data ≠ [] :=
      data_ne_nil_right _ _ hXne
    have hA2 : (((if r.duty_cycle ≠ 0 then decRepr r.duty_cycle ++ "%," else "")
        ++ ("msb\x7d" ++ (popS ("<" ++ bitLoop r.flags_space_first r.bit)
          ++ (">(" ++ streamItems r)))) : String).data ≠ [] :=
      data_ne_nil_right _ _ hA3
    have hA1 : (((if r.frequency ≠ 0 then kiloRepr r.frequency ++ "k," else "")
        ++ ((if r.duty_cycle ≠ 0 then decRepr r.duty_cycle ++ "%," else "")
          ++ ("msb\x7d" ++ (popS ("<" ++ bitLoop r.flags_space_first r.bit)
            ++ (">(" ++ streamItems r))))) : String).data ≠ [] :=
      data_ne_nil_right _ _ hA2
    rw [popS_append _ _ hA1, popS_append _ _ hA2, popS_append _ _ hA3,
      popS_append _ _ hXne]
    simp only [String.append_assoc]

theorem repeatEnd_eq (r : LircRemote) :
    repeatEnd r
      = "(" ++ decRepr r.repeat'.1 ++ ",-" ++ decRepr r.repeat'.2
          ++ (if r.ptrail ≠ 0 then "," ++ decRepr r.ptrail else "") ++ ")*)" := by
  unfold repeatEnd
  by_cases hp : r.ptrail ≠ 0
  · rw [if_pos hp, if_pos hp]
    rw [show "(" ++ decRepr r.repeat'.1 ++ ",-" ++ decRepr r.repeat'.2 ++ ","
          ++ (decRepr r.ptrail ++ ",")
        = ("(" ++ decRepr r.repeat'.1 ++ ",-" ++ decRepr r.repeat'.2 ++ ","
          ++ decRepr r.ptrail) ++ "," from by simp only [String.append_assoc]]
    rw [popS_comma]
    simp only [String.append_assoc]
  · rw [if_neg hp, if_neg hp]
    rw [strAppendEmpty, popS_comma]
    simp only [String.append_assoc, strAppendEmpty]

/-- C8: every IRP string `LircRemote::irp` returns declares `msb` ordering,
closing the general spec, and ends with a parameter spec for exactly one
parameter `CODE` with inclusive range `0 .. 2^bits - 1` — the text before it
contains no `[`, so the bracketed section is unique. -/
theorem lirc_irp_msb_and_code_param (r : LircRemote) (out : String)
    (h : r.irp = some out) :
    (∃ a b, out = "\x7b" ++ a ++ "msb\x7d" ++ b)
      ∧ ∃ body, out = body ++ " [CODE:0.." ++ decRepr (2 ^ r.bits - 1) ++ "]"
          ∧ noBrk body := by
  unfold LircRemote.irp at h
  by_cases hb : r.bits < 64
  · rw [if_pos hb, Option.some_inj] at h
    subst h
    have hshift : (1 <<< r.bits) = 2 ^ r.bits := by
      rw [Nat.shiftLeft_eq, one_mul]
    constructor
    · exact ⟨_, _, irpStr_decomp r⟩
    · refine ⟨("\x7b" ++ ((if r.frequency ≠ 0 then kiloRepr r.frequency ++ "k," else "")
            ++ (if r.duty_cycle ≠ 0 then decRepr r.duty_cycle ++ "%," else ""))
          ++ "msb\x7d")
        ++ (if r.repeat'.1 ≠ 0 ∧ r.repeat'.2 ≠ 0 then
              (popS ("<" ++ bitLoop r.flags_space_first r.bit) ++ ">("
                  ++ streamItems r) ++ repeatEnd r
            else
              popS (popS ("<" ++ bitLoop r.flags_space_first r.bit) ++ ">("
                  ++ streamItems r) ++ ")+"), ?_, ?_⟩
      · rw [irpStr_decomp r, hshift]
        simp only [String.append_assoc]
      · have hX : noBrk (popS ("<" ++ bitLoop r.flags_space_first r.bit)
            ++ ">(" ++ streamItems r) :=
          noBrk_append
            (noBrk_append
              (noBrk_popS (noBrk_append (by decide) (noBrk_bitLoop _ _)))
              (by decide))
            (noBrk_streamItems r)
        have hP : noBrk ("\x7b"
            ++ ((if r.frequency ≠ 0 then kiloRepr r.frequency ++ "k," else "")
              ++ (if r.duty_cycle ≠ 0 then decRepr r.duty_cycle ++ "%," else ""))
            ++ "msb\x7d") :=
          noBrk_append
            (noBrk_append (by decide)
              (noBrk_append
                (noBrk_ite _ (noBrk_append (noBrk_kiloRepr _) (by decide))
                  (by decide))
                (noBrk_ite _ (noBrk_append (noBrk_decRepr _) (by decide))
                  (by decide))))
            (by decide)
        exact noBrk_append hP
          (noBrk_ite _ (noBrk_append hX (noBrk_repeatEnd r))
            (noBrk_append (noBrk_popS hX) (by decide)))
  · rw [if_neg hb] at h
    exact absurd h (by simp)

/-- C8 witness: the decomposition holds of the concrete sample remote. -/
theorem lirc_irp_msb_and_code_param_witness :
    (∃ a b, (sampleRemote.irp).getD "" = "\x7b" ++ a ++ "msb\x7d" ++ b)
      ∧ ∃ body, (sampleRemote.irp).getD ""
          = body ++ " [CODE:0.." ++ decRepr (2 ^ sampleRemote.bits - 1) ++ "]"
          ∧ noBrk body :=
  lirc_irp_msb_and_code_param sampleRemote ((sampleRemote.irp).getD "")
    (by decide)

/-- C9: `LircRemote::irp` computes the upper bound of `CODE` from the shift
`1u64 << bits`; it returns normally exactly when `bits < 64`, which is exactly
when the shifted value still fits an unsigned 64-bit integer — for
`bits ≥ 64` the shift overflows and the call panics (modelled as `none`). -/
theorem lirc_irp_shift_overflow (r : LircRemote) :
    ((r.irp).isSome ↔ r.bits < 64)
      ∧ ((1 <<< r.bits) < 2 ^ 64 ↔ r.bits < 64) := by
  constructor
  · unfold LircRemote.irp
    by_cases h : r.bits < 64
    · simp [h]
    · simp [h]
  · rw [Nat.shiftLeft_eq, one_mul]
    constructor
    · intro h
      by_contra hc
      push_neg at hc
      have h2 : (2 : Nat) ^ 64 ≤ 2 ^ r.bits := Nat.pow_le_pow_right (by omega) hc
      omega
    · intro h
      exact Nat.pow_lt_pow_right (by omega) h

/-- C10: every IRP string the builder produces carries a repeat marker: with
both repeat durations nonzero the stream ends in a nested `(flash,-gap[,ptrail])*`
sub-stream before the parameter spec, otherwise the whole stream is closed by
`)+`. -/
theorem lirc_irp_repeat_marker (r : LircRemote) (out : String)
    (h : r.irp = some out) :
    (r.repeat'.1 ≠ 0 ∧ r.repeat'.2 ≠ 0 →
      ∃ body, out = body ++ "(" ++ decRepr r.repeat'.1 ++ ",-"
          ++ decRepr r.repeat'.2
          ++ (if r.ptrail ≠ 0 then "," ++ decRepr r.ptrail else "")
          ++ ")*) [CODE:0.." ++ decRepr (2 ^ r.bits - 1) ++ "]")
      ∧ (¬(r.repeat'.1 ≠ 0 ∧ r.repeat'.2 ≠ 0) →
        ∃ body, out = body ++ ")+ [CODE:0.." ++ decRepr (2 ^ r.bits - 1) ++ "]") := by
  unfold LircRemote.irp at h
  by_cases hb : r.bits < 64
  · rw [if_pos hb, Option.some_inj] at h
    subst h
    have hshift : (1 <<< r.bits) = 2 ^ r.bits := by
      rw [Nat.shiftLeft_eq, one_mul]
    have hlit1 : (")*) [CODE:0.." : String) = ")*)" ++ " [CODE:0.." := rfl
    have hlit2 : (")+ [CODE:0.." : String) = ")+" ++ " [CODE:0.." := rfl
    constructor
    · intro hrep
      refine ⟨("\x7b" ++ ((if r.frequency ≠ 0 then kiloRepr r.frequency ++ "k," else "")
            ++ (if r.duty_cycle ≠ 0 then decRepr r.duty_cycle ++ "%," else ""))
          ++ "msb\x7d")
        ++ (popS ("<" ++ bitLoop r.flags_space_first r.bit) ++ ">("
            ++ streamItems r), ?_⟩
      rw [irpStr_decomp r, if_pos hrep, repeatEnd_eq r, hshift]
      rw [show (")*) [CODE:0.." : String) = ")*)" ++ " [CODE:0.." from rfl]
      simp only [String.append_assoc]
    · intro hrep
      refine ⟨("\x7b" ++ ((if r.frequency ≠ 0 then kiloRepr r.frequency ++ "k," else "")
            ++ (if r.duty_cycle ≠ 0 then decRepr r.duty_cycle ++ "%," else ""))
          ++ "msb\x7d")
        ++ popS (popS ("<" ++ bitLoop r.flags_space_first r.bit) ++ ">("
            ++ streamItems r), ?_⟩
      rw [irpStr_decomp r, if_neg hrep, hshift]
      rw [show (")+ [CODE:0.." : String) = ")+" ++ " [CODE:0.." from rfl]
      simp only [String.append_assoc]
  · rw [if_neg hb] at h
    exact absurd h (by simp)

/-- C10 witness: the sample remote has both repeat durations nonzero and its
IRP string ends with the starred repeat sub-stream before the parameter
spec. -/
theorem lirc_irp_repeat_marker_witness :
    ∃ body, (sampleRemote.irp).getD ""
      = body ++ "(" ++ decRepr sampleRemote.repeat'.1 ++ ",-"
        ++ decRepr sampleRemote.repeat'.2
        ++ (if sampleRemote.ptrail ≠ 0 then "," ++ decRepr sampleRemote.ptrail else "")
        ++ ")*) [CODE:0.." ++ decRepr (2 ^ sampleRemote.bits - 1) ++ "]" :=
  (lirc_irp_repeat_marker sampleRemote ((sampleRemote.irp).getD "")
    (by decide)).1 (by decide)
